import Mathlib

/-!
Verification of the `datagrams` package (offline-signature codec, options
mapping codec, address parser) against its natural-language specification.

Bytes are modelled as `Nat` (with the range constraint `< 256` made explicit
where a statement needs it), Go strings as raw byte lists, machine integers
as `Nat`/`Int` with explicit reductions modulo `2^16`/`2^32`, and fallible
Go functions as `Except`-valued Lean functions.
-/

set_option autoImplicit false

namespace Datagrams

/-- A Go string or `[]byte`, modelled as its raw byte sequence: a list of
`Nat` values (wire bytes are `< 256`; the bound is made explicit where a
statement needs it). -/
abbrev ByteStr := List Nat

/-- Equality of `Except` results is decidable when both components are;
lets witnesses evaluate codec results with `decide`. -/
instance instDecEqExcept {ε α : Type} [DecidableEq ε] [DecidableEq α] :
    DecidableEq (Except ε α)
  | .error e, .error f =>
    if h : e = f then .isTrue (congrArg Except.error h)
    else .isFalse fun hh => h (Except.error.inj hh)
  | .error _, .ok _ => .isFalse fun hh => Except.noConfusion hh
  | .ok _, .error _ => .isFalse fun hh => Except.noConfusion hh
  | .ok a, .ok b =>
    if h : a = b then .isTrue (congrArg Except.ok h)
    else .isFalse fun hh => h (Except.ok.inj hh)

/-! ## SigTypeTable (src/unnamed/part_000, `publicKeyLengthForSigType` /
`signatureLengthForSigType`) -/

/-- `publicKeyLengthForSigType`: public key length for a signature type code;
0 for unknown types. -/
def publicKeyLengthForSigType (sigType : Nat) : Nat :=
  if sigType = 0 then 128
  else if sigType = 1 then 64
  else if sigType = 2 then 96
  else if sigType = 3 then 132
  else if sigType = 7 then 32
  else if sigType = 11 then 32
  else 0

/-- `signatureLengthForSigType`: signature length for a signature type code;
0 for unknown types. -/
def signatureLengthForSigType (sigType : Nat) : Nat :=
  if sigType = 0 then 40
  else if sigType = 1 then 64
  else if sigType = 2 then 96
  else if sigType = 3 then 132
  else if sigType = 7 then 64
  else if sigType = 11 then 64
  else 0

/-! ## OfflineSignature (src/unnamed/part_000) -/

/-- `OfflineSignature`: a transient-key authorization block.  The Go field
`Expires` is a `time.Time`; we model it by its Unix seconds (`Int`, the
value of `Expires.Unix()`) together with its nanosecond component. -/
structure OfflineSignature where
  expiresSec : Int
  expiresNSec : Nat
  transientSigType : Nat
  transientPublicKey : ByteStr
  signature : ByteStr
deriving DecidableEq, Repr

/-- Errors returned by `OfflineSignatureFromBytes` (the Go code returns
formatted `error` values; we keep their distinguishing data). -/
inductive OfflineErr where
  /-- "data too short for header (need 6 bytes, got %d)" -/
  | tooShortHeader (got : Nat)
  /-- "unknown transient sigtype %d" -/
  | unknownTransient (sigType : Nat)
  /-- "unknown destination sigtype %d" -/
  | unknownDest (sigType : Nat)
  /-- "data too short (need %d bytes, got %d)" -/
  | tooShort (need got : Nat)
deriving DecidableEq, Repr

/-- Big-endian `uint32` value of four bytes (`binary.BigEndian.Uint32`). -/
def beU32 (b0 b1 b2 b3 : Nat) : Nat :=
  ((b0 * 256 + b1) * 256 + b2) * 256 + b3

/-- Big-endian 4-byte encoding of `n < 2^32` (`binary.BigEndian.PutUint32`). -/
def u32be (n : Nat) : ByteStr :=
  [n / 16777216 % 256, n / 65536 % 256, n / 256 % 256, n % 256]

/-- Big-endian 2-byte encoding of `n < 2^16` (`binary.BigEndian.PutUint16`). -/
def u16be (n : Nat) : ByteStr :=
  [n / 256 % 256, n % 256]

/-- `OfflineSignatureFromBytes`: parse an offline signature block.  Returns
the structure and the number of bytes consumed.  The leading six bytes are
matched structurally, which is exactly the Go guard `len(data) < 6`. -/
def OfflineSignatureFromBytes (data : ByteStr) (destSigType : Nat) :
    Except OfflineErr (OfflineSignature × Nat) :=
  match data with
  | b0 :: b1 :: b2 :: b3 :: b4 :: b5 :: rest =>
    let expiresSec := beU32 b0 b1 b2 b3
    let transientSigType := b4 * 256 + b5
    let transientKeyLen := publicKeyLengthForSigType transientSigType
    if transientKeyLen = 0 then
      .error (.unknownTransient transientSigType)
    else
      let authSigLen := signatureLengthForSigType destSigType
      if authSigLen = 0 then
        .error (.unknownDest destSigType)
      else
        let totalLen := 6 + transientKeyLen + authSigLen
        if data.length < totalLen then
          .error (.tooShort totalLen data.length)
        else
          .ok (⟨(expiresSec : Int), 0, transientSigType,
                rest.take transientKeyLen,
                (rest.drop transientKeyLen).take authSigLen⟩, totalLen)
  | _ => .error (.tooShortHeader data.length)

/-- `OfflineSignature.Bytes`: encode to binary.  `uint32(o.Expires.Unix())`
is the Euclidean remainder of the Unix seconds modulo `2^32`; the sigtype
field is a Go `uint16`, so its two bytes are its value modulo `2^16`. -/
def OfflineSignature.Bytes (o : OfflineSignature) : ByteStr :=
  u32be (o.expiresSec % 4294967296).toNat ++
    u16be (o.transientSigType % 65536) ++
    o.transientPublicKey ++ o.signature

/-- `OfflineSignature.Len`: encoded length. -/
def OfflineSignature.Len (o : OfflineSignature) : Nat :=
  6 + o.transientPublicKey.length + o.signature.length

/-- Byte `i` of `data` (0 when out of range); used by the spec-side decoder
to read header fields by index the way the prose describes them. -/
def byteAt (data : ByteStr) (i : Nat) : Nat :=
  data.getD i 0

/-- Written from the claim C3 wording: the exact case analysis the decode
operation is claimed to perform, reading header fields by byte index. -/
def offlineDecodeSpec (data : ByteStr) (destSigType : Nat) :
    Except OfflineErr (OfflineSignature × Nat) :=
  if data.length < 6 then .error (.tooShortHeader data.length)
  else
    let transientSigType := byteAt data 4 * 256 + byteAt data 5
    if publicKeyLengthForSigType transientSigType = 0 then
      .error (.unknownTransient transientSigType)
    else if signatureLengthForSigType destSigType = 0 then
      .error (.unknownDest destSigType)
    else
      let total := 6 + publicKeyLengthForSigType transientSigType +
        signatureLengthForSigType destSigType
      if data.length < total then .error (.tooShort total data.length)
      else
        .ok (⟨(beU32 (byteAt data 0) (byteAt data 1) (byteAt data 2)
                (byteAt data 3) : Int), 0, transientSigType,
              (data.drop 6).take (publicKeyLengthForSigType transientSigType),
              ((data.drop 6).drop (publicKeyLengthForSigType transientSigType)).take
                (signatureLengthForSigType destSigType)⟩, total)

/-- Decoding the encoding of a structurally consistent `OfflineSignature`
succeeds and recovers every field, with the expiry reduced modulo `2^32`.
Shared backbone of the round-trip results. -/
theorem offlineDecode_encode (v : OfflineSignature) (dst : Nat)
    (hk : v.transientPublicKey.length = publicKeyLengthForSigType v.transientSigType)
    (hk0 : publicKeyLengthForSigType v.transientSigType ≠ 0)
    (hs : v.signature.length = signatureLengthForSigType dst)
    (hs0 : signatureLengthForSigType dst ≠ 0)
    (ht : v.transientSigType < 65536) :
    OfflineSignatureFromBytes (OfflineSignature.Bytes v) dst =
      .ok (⟨((v.expiresSec % 4294967296).toNat : Int), 0,
            v.transientSigType, v.transientPublicKey, v.signature⟩,
           (OfflineSignature.Bytes v).length) := by
  obtain ⟨sec, nsec, tst, key, sig⟩ := v
  simp only at hk hs ht hk0
  set e := (sec % 4294967296).toNat with he
  have he32 : e < 4294967296 := by
    have h1 : sec % 4294967296 < 4294967296 := Int.emod_lt_of_pos _ (by omega)
    have h2 : 0 ≤ sec % 4294967296 := Int.emod_nonneg _ (by omega)
    omega
  simp only [OfflineSignature.Bytes, u32be, u16be, List.cons_append,
    List.nil_append, OfflineSignatureFromBytes]
  have htst : (tst % 65536) / 256 % 256 * 256 + tst % 65536 % 256 = tst := by omega
  rw [htst]
  rw [if_neg hk0, if_neg hs0]
  have hlen : ((e / 16777216 % 256 :: e / 65536 % 256 :: e / 256 % 256 ::
      e % 256 :: (tst % 65536) / 256 % 256 :: tst % 65536 % 256 ::
      (key ++ sig) : ByteStr)).length =
      6 + key.length + sig.length := by
    simp [List.length_append]
    omega
  rw [hlen, if_neg (by omega)]
  have hbe : beU32 (e / 16777216 % 256) (e / 65536 % 256) (e / 256 % 256)
      (e % 256) = e := by
    simp only [beU32]
    omega
  rw [hbe]
  have hkey : (key ++ sig).take (publicKeyLengthForSigType tst) = key := by
    rw [← hk]; exact List.take_left key sig
  have hsig : ((key ++ sig).drop (publicKeyLengthForSigType tst)).take
      (signatureLengthForSigType dst) = sig := by
    rw [← hk, List.drop_left, ← hs, List.take_length]
  rw [hkey, hsig]
  have htot : (6 : Nat) + publicKeyLengthForSigType tst +
      signatureLengthForSigType dst = 6 + key.length + sig.length := by omega
  rw [htot]

/-- C3: `OfflineSignatureFromBytes` performs exactly the claimed case
analysis (too-short header, unknown transient type, unknown destination
type, too-short body, success with `bytesConsumed = total`), and on success
the extracted fields have exactly the table-given lengths and the consumed
count never exceeds the input length (no out-of-bounds read). -/
theorem offlineDecode_caseAnalysis (data : ByteStr) (dst : Nat) :
    OfflineSignatureFromBytes data dst = offlineDecodeSpec data dst ∧
    (∀ o n, OfflineSignatureFromBytes data dst = .ok (o, n) →
      n = 6 + publicKeyLengthForSigType o.transientSigType +
        signatureLengthForSigType dst ∧
      n ≤ data.length ∧
      o.transientPublicKey.length = publicKeyLengthForSigType o.transientSigType ∧
      o.signature.length = signatureLengthForSigType dst) := by
  match data with
  | [] => exact ⟨rfl, by intro o n h; exact absurd h (by simp [OfflineSignatureFromBytes])⟩
  | [b0] => exact ⟨rfl, by intro o n h; exact absurd h (by simp [OfflineSignatureFromBytes])⟩
  | [b0, b1] => exact ⟨rfl, by intro o n h; exact absurd h (by simp [OfflineSignatureFromBytes])⟩
  | [b0, b1, b2] => exact ⟨rfl, by intro o n h; exact absurd h (by simp [OfflineSignatureFromBytes])⟩
  | [b0, b1, b2, b3] => exact ⟨rfl, by intro o n h; exact absurd h (by simp [OfflineSignatureFromBytes])⟩
  | [b0, b1, b2, b3, b4] => exact ⟨rfl, by intro o n h; exact absurd h (by simp [OfflineSignatureFromBytes])⟩
  | b0 :: b1 :: b2 :: b3 :: b4 :: b5 :: rest =>
    constructor
    · unfold offlineDecodeSpec
      rw [if_neg (by simp only [List.length_cons]; omega)]
      rfl
    · intro o n h
      simp only [OfflineSignatureFromBytes] at h
      by_cases h1 : publicKeyLengthForSigType (b4 * 256 + b5) = 0
      · rw [if_pos h1] at h; exact absurd h (by simp)
      · rw [if_neg h1] at h
        by_cases h2 : signatureLengthForSigType dst = 0
        · rw [if_pos h2] at h; exact absurd h (by simp)
        · rw [if_neg h2] at h
          by_cases h3 : (b0 :: b1 :: b2 :: b3 :: b4 :: b5 :: rest).length <
              6 + publicKeyLengthForSigType (b4 * 256 + b5) +
                signatureLengthForSigType dst
          · rw [if_pos h3] at h; exact absurd h (by simp)
          · rw [if_neg h3] at h
            rw [Except.ok.injEq, Prod.mk.injEq] at h
            obtain ⟨ho, hn⟩ := h
            subst ho hn
            simp only [List.length_cons] at h3
            refine ⟨rfl, ?_, ?_, ?_⟩ <;>
              (simp only [List.length_cons, List.length_take, List.length_drop]
               omega)

/-- A concrete well-formed Ed25519-style offline signature used to witness
the offline-signature theorems. -/
def sampleOfflineSig : OfflineSignature :=
  ⟨1, 0, 7, List.replicate 32 2, List.replicate 64 3⟩

/-- Its 102-byte wire form. -/
def sampleOfflineData : ByteStr :=
  [0, 0, 0, 1, 0, 7] ++ List.replicate 32 2 ++ List.replicate 64 3

/-- Witness for C3 at the concrete 102-byte Ed25519 block. -/
theorem offlineDecode_caseAnalysis_witness :
    OfflineSignatureFromBytes sampleOfflineData 7 =
      offlineDecodeSpec sampleOfflineData 7 ∧
    ((102 : Nat) = 6 + publicKeyLengthForSigType sampleOfflineSig.transientSigType +
        signatureLengthForSigType 7 ∧
      102 ≤ sampleOfflineData.length ∧
      sampleOfflineSig.transientPublicKey.length =
        publicKeyLengthForSigType sampleOfflineSig.transientSigType ∧
      sampleOfflineSig.signature.length = signatureLengthForSigType 7) :=
  ⟨(offlineDecode_caseAnalysis sampleOfflineData 7).1,
    (offlineDecode_caseAnalysis sampleOfflineData 7).2 sampleOfflineSig 102 (by decide)⟩

/-- The structure C4's claim quantifies over but the decoder rejects: an
unknown transient sigtype (255) with the matching zero-length public key,
and a destination-valid 64-byte signature. -/
def offlineC4Cex : OfflineSignature := ⟨0, 0, 255, [], List.replicate 64 0⟩

/-- C4 counterexample: `offlineC4Cex` satisfies every hypothesis of the
claim (key length matches `pubKeyLen(255) = 0`, signature length matches
`sigLen(7)`, and destination type 7 is present in the table), yet decoding
its encoding fails with an unknown-transient-sigtype error instead of
succeeding with the original value. -/
theorem offlineRoundTrip_cex :
    offlineC4Cex.transientPublicKey.length =
      publicKeyLengthForSigType offlineC4Cex.transientSigType ∧
    offlineC4Cex.signature.length = signatureLengthForSigType 7 ∧
    signatureLengthForSigType 7 ≠ 0 ∧
    OfflineSignatureFromBytes (OfflineSignature.Bytes offlineC4Cex) 7 =
      .error (.unknownTransient 255) ∧
    OfflineSignatureFromBytes (OfflineSignature.Bytes offlineC4Cex) 7 ≠
      .ok (offlineC4Cex, (OfflineSignature.Bytes offlineC4Cex).length) := by
  decide

/-- C4 (amended): the round trip holds once the transient sigtype is itself
present in the table and the expiry is a whole-second time with Unix
seconds in `[0, 2^32)` (the wire stores only a `uint32` of seconds). -/
theorem offlineRoundTrip (v : OfflineSignature) (dst : Nat)
    (hk : v.transientPublicKey.length = publicKeyLengthForSigType v.transientSigType)
    (hk0 : publicKeyLengthForSigType v.transientSigType ≠ 0)
    (hs : v.signature.length = signatureLengthForSigType dst)
    (hs0 : signatureLengthForSigType dst ≠ 0)
    (ht : v.transientSigType < 65536)
    (he0 : 0 ≤ v.expiresSec) (he1 : v.expiresSec < 4294967296)
    (hn : v.expiresNSec = 0) :
    OfflineSignatureFromBytes (OfflineSignature.Bytes v) dst =
      .ok (v, (OfflineSignature.Bytes v).length) := by
  rw [offlineDecode_encode v dst hk hk0 hs hs0 ht]
  obtain ⟨sec, nsec, tst, key, sig⟩ := v
  simp only at he0 he1 hn
  subst hn
  have h1 : ((sec % 4294967296).toNat : Int) = sec := by omega
  rw [h1]

/-- Witness for the amended C4 at the concrete Ed25519 block. -/
theorem offlineRoundTrip_witness :
    OfflineSignatureFromBytes (OfflineSignature.Bytes sampleOfflineSig) 7 =
      .ok (sampleOfflineSig, (OfflineSignature.Bytes sampleOfflineSig).length) :=
  offlineRoundTrip sampleOfflineSig 7 (by decide) (by decide) (by decide)
    (by decide) (by decide) (by decide) (by decide) rfl

/-- C8: the encoder stores the expiry as its Unix seconds reduced modulo
`2^32` (big-endian, bytes 0..3), so the round trip fixes the nanosecond
part to zero and returns the reduced seconds: the decoded value equals the
original exactly when the Unix seconds lie in `[0, 2^32)` and there is no
subsecond component, and the seconds always differ by a multiple of
`2^32`. -/
theorem offlineExpiresTruncation (v : OfflineSignature) (dst : Nat)
    (hk : v.transientPublicKey.length = publicKeyLengthForSigType v.transientSigType)
    (hk0 : publicKeyLengthForSigType v.transientSigType ≠ 0)
    (hs : v.signature.length = signatureLengthForSigType dst)
    (hs0 : signatureLengthForSigType dst ≠ 0)
    (ht : v.transientSigType < 65536) :
    (OfflineSignature.Bytes v).take 4 =
      u32be ((v.expiresSec % 4294967296).toNat) ∧
    ∃ w, OfflineSignatureFromBytes (OfflineSignature.Bytes v) dst =
        .ok (w, (OfflineSignature.Bytes v).length) ∧
      w.expiresSec = v.expiresSec % 4294967296 ∧
      w.expiresNSec = 0 ∧
      (w = v ↔ 0 ≤ v.expiresSec ∧ v.expiresSec < 4294967296 ∧ v.expiresNSec = 0) ∧
      (4294967296 : Int) ∣ v.expiresSec - w.expiresSec := by
  have hdec := offlineDecode_encode v dst hk hk0 hs hs0 ht
  obtain ⟨sec, nsec, tst, key, sig⟩ := v
  have hofNat : ((sec % 4294967296).toNat : Int) = sec % 4294967296 := by
    omega
  refine ⟨rfl,
    ⟨((sec % 4294967296).toNat : Int), 0, tst, key, sig⟩, hdec,
    hofNat, rfl, ?_, ?_⟩
  · dsimp only
    simp only [OfflineSignature.mk.injEq, eq_self_iff_true, and_true, true_and]
    omega
  · dsimp only
    omega

/-- Witness for C8 at the concrete Ed25519 block. -/
theorem offlineExpiresTruncation_witness :
    (OfflineSignature.Bytes sampleOfflineSig).take 4 =
      u32be ((sampleOfflineSig.expiresSec % 4294967296).toNat) ∧
    ∃ w, OfflineSignatureFromBytes (OfflineSignature.Bytes sampleOfflineSig) 7 =
        .ok (w, (OfflineSignature.Bytes sampleOfflineSig).length) ∧
      w.expiresSec = sampleOfflineSig.expiresSec % 4294967296 ∧
      w.expiresNSec = 0 ∧
      (w = sampleOfflineSig ↔ 0 ≤ sampleOfflineSig.expiresSec ∧
        sampleOfflineSig.expiresSec < 4294967296 ∧
        sampleOfflineSig.expiresNSec = 0) ∧
      (4294967296 : Int) ∣ sampleOfflineSig.expiresSec - w.expiresSec :=
  offlineExpiresTruncation sampleOfflineSig 7 (by decide) (by decide)
    (by decide) (by decide) (by decide)

/-! ## I2PAddr / ParseI2PAddr (src/unnamed/part_001) -/

/-- Errors returned by `ParseI2PAddr`. -/
inductive AddrErr where
  /-- "empty address string" -/
  | emptyAddress
  /-- "invalid port %q: %w" -/
  | invalidPort (segment : ByteStr)
deriving DecidableEq, Repr

/-- `I2PAddr`: destination string plus port. -/
structure I2PAddr where
  destination : ByteStr
  port : Nat
deriving DecidableEq, Repr

/-- `strings.Split(s, ":")` on byte strings; 58 is the colon byte. -/
def splitColon : ByteStr → List ByteStr
  | [] => [[]]
  | c :: rest =>
    if c = 58 then [] :: splitColon rest
    else
      match splitColon rest with
      | [] => [[c]]
      | s :: ss => (c :: s) :: ss

/-- `strings.Join(parts, ":")` on byte strings. -/
def joinColon : List ByteStr → ByteStr
  | [] => []
  | [s] => s
  | s :: rest => s ++ 58 :: joinColon rest

/-- `strconv.ParseUint(s, 10, 16)`: succeeds exactly on a non-empty string
of ASCII digits whose value is below `2^16`; a sign or any other character
is rejected. -/
def parsePort (s : ByteStr) : Option Nat :=
  if s = [] then none
  else if s.all (fun c => 48 ≤ c && c ≤ 57) then
    let n := s.foldl (fun acc c => acc * 10 + (c - 48)) 0
    if n < 65536 then some n else none
  else none

/-- `ParseI2PAddr`: parse `"destination:port"`, `":port"` or
`"destination"` (the last splits into a single segment). -/
def ParseI2PAddr (addr : ByteStr) : Except AddrErr I2PAddr :=
  if addr = [] then .error .emptyAddress
  else
    let parts := splitColon addr
    if parts.length = 1 then .ok ⟨parts.headD [], 0⟩
    else
      let portStr := parts.getLastD []
      match parsePort portStr with
      | none => .error (.invalidPort portStr)
      | some p => .ok ⟨joinColon parts.dropLast, p⟩

/-- Written from the claim C7 wording: no colon means the whole string is
the destination with port 0; otherwise the last colon-separated segment
must parse as a port and the preceding segments are rejoined with
colons. -/
def parseAddrSpec (addr : ByteStr) : Except AddrErr I2PAddr :=
  if addr = [] then .error .emptyAddress
  else if 58 ∈ addr then
    let segs := splitColon addr
    let portStr := segs.getLastD []
    match parsePort portStr with
    | none => .error (.invalidPort portStr)
    | some p => .ok ⟨joinColon segs.dropLast, p⟩
  else .ok ⟨addr, 0⟩

/-- `strings.Split` never returns an empty list. -/
theorem splitColon_ne_nil (s : ByteStr) : splitColon s ≠ [] := by
  induction s with
  | nil => simp [splitColon]
  | cons c rest ih =>
    simp only [splitColon]
    split
    · simp
    · split
      · simp
      · simp

/-- A string without a colon splits into the single segment itself. -/
theorem splitColon_eq_single (s : ByteStr) (h : 58 ∉ s) : splitColon s = [s] := by
  induction s with
  | nil => rfl
  | cons c rest ih =>
    simp only [List.mem_cons, not_or] at h
    have hc : c ≠ 58 := fun hh => h.1 hh.symm
    simp only [splitColon, if_neg hc, ih h.2]

/-- A string containing a colon splits into at least two segments. -/
theorem two_le_length_splitColon {s : ByteStr} (h : 58 ∈ s) :
    2 ≤ (splitColon s).length := by
  induction s with
  | nil => cases h
  | cons c rest ih =>
    simp only [splitColon]
    by_cases hc : c = 58
    · rw [if_pos hc]
      have := splitColon_ne_nil rest
      simp only [List.length_cons]
      cases hsplit : splitColon rest with
      | nil => exact absurd hsplit this
      | cons a l => simp
    · rw [if_neg hc]
      have hmem : 58 ∈ rest := by
        rcases List.mem_cons.mp h with h1 | h1
        · exact absurd h1.symm hc
        · exact h1
      have h2 := ih hmem
      cases hsplit : splitColon rest with
      | nil => exact absurd hsplit (splitColon_ne_nil rest)
      | cons a l =>
        rw [hsplit] at h2
        simpa using h2

/-- Splitting distributes over an explicit colon. -/
theorem splitColon_append (d t : ByteStr) :
    splitColon (d ++ 58 :: t) = splitColon d ++ splitColon t := by
  induction d with
  | nil => rfl
  | cons c rest ih =>
    by_cases hc : c = 58
    · simp only [List.cons_append, splitColon, if_pos hc, List.append_eq, ih]
    · cases hsplit : splitColon rest with
      | nil => exact absurd hsplit (splitColon_ne_nil rest)
      | cons a l =>
        simp only [List.cons_append, splitColon, if_neg hc, List.append_eq,
          ih, hsplit]

/-- Joining the split segments with colons recovers the string. -/
theorem joinColon_splitColon (s : ByteStr) : joinColon (splitColon s) = s := by
  induction s with
  | nil => rfl
  | cons c rest ih =>
    simp only [splitColon]
    by_cases hc : c = 58
    · rw [if_pos hc]
      subst hc
      cases hsplit : splitColon rest with
      | nil => exact absurd hsplit (splitColon_ne_nil rest)
      | cons a l =>
        rw [hsplit] at ih
        simpa [joinColon] using ih
    · rw [if_neg hc]
      cases hsplit : splitColon rest with
      | nil => exact absurd hsplit (splitColon_ne_nil rest)
      | cons a l =>
        rw [hsplit] at ih
        cases l with
        | nil => simpa [joinColon] using ih
        | cons b l' => simpa [joinColon] using ih

/-- Joining after appending a final segment appends a colon and it. -/
theorem joinColon_concat (xs : List ByteStr) (t : ByteStr) (h : xs ≠ []) :
    joinColon (xs ++ [t]) = joinColon xs ++ 58 :: t := by
  induction xs with
  | nil => exact absurd rfl h
  | cons x xs ih =>
    cases xs with
    | nil => rfl
    | cons y ys =>
      have h2 := ih (by simp)
      rw [List.cons_append] at h2
      rw [List.cons_append, List.cons_append]
      show x ++ 58 :: joinColon (y :: (ys ++ [t])) =
        (x ++ 58 :: joinColon (y :: ys)) ++ 58 :: t
      rw [h2]
      simp

/-- The last segment of a list ending in `a` is `a`. -/
theorem getLastD_concat_any (xs : List ByteStr) (a d : ByteStr) :
    (xs ++ [a]).getLastD d = a := by
  induction xs generalizing d with
  | nil => rfl
  | cons x xs ih =>
    rw [List.cons_append, List.getLastD_cons]
    exact ih x

/-- A successfully parsed port segment is non-empty and all ASCII digits. -/
theorem parsePort_digits {s : ByteStr} {p : Nat} (h : parsePort s = some p) :
    s ≠ [] ∧ ∀ c ∈ s, 48 ≤ c ∧ c ≤ 57 := by
  unfold parsePort at h
  by_cases h0 : s = []
  · rw [if_pos h0] at h; cases h
  · rw [if_neg h0] at h
    by_cases h1 : s.all (fun c => 48 ≤ c && c ≤ 57) = true
    · refine ⟨h0, fun c hc => ?_⟩
      have := List.all_eq_true.mp h1 c hc
      simp only [Bool.and_eq_true, decide_eq_true_eq] at this
      exact this
    · rw [if_neg h1] at h; cases h

/-- Parsing `destination ++ ":" ++ port` succeeds with exactly that
destination whenever the final segment parses as a port — even when the
destination itself contains colons. -/
theorem parseAddr_ok_with_port (d pstr : ByteStr) (p : Nat)
    (hp : parsePort pstr = some p) :
    ParseI2PAddr (d ++ 58 :: pstr) = .ok ⟨d, p⟩ := by
  have hdig := parsePort_digits hp
  have hnc : 58 ∉ pstr := by
    intro hmem
    have h58 := (hdig.2 58 hmem).2
    exact absurd h58 (by decide)
  have hne : (d ++ 58 :: pstr) ≠ [] := by simp
  have hparts : splitColon (d ++ 58 :: pstr) = splitColon d ++ [pstr] := by
    rw [splitColon_append, splitColon_eq_single pstr hnc]
  simp only [ParseI2PAddr, if_neg hne, hparts]
  have hlen1 : (splitColon d ++ [pstr]).length ≠ 1 := by
    have := List.length_pos.mpr (splitColon_ne_nil d)
    simp only [List.length_append, List.length_cons, List.length_nil]
    omega
  rw [if_neg hlen1, getLastD_concat_any, hp, List.dropLast_concat,
    joinColon_splitColon]

/-- `ParseI2PAddr` agrees with the claim-side description everywhere. -/
theorem parseAddr_eq_spec (addr : ByteStr) :
    ParseI2PAddr addr = parseAddrSpec addr := by
  by_cases h0 : addr = []
  · subst h0; rfl
  · by_cases hc : 58 ∈ addr
    · have h2 := two_le_length_splitColon hc
      simp only [ParseI2PAddr, parseAddrSpec, if_neg h0, if_pos hc]
      rw [if_neg (by omega)]
    · have h1 := splitColon_eq_single addr hc
      simp only [ParseI2PAddr, parseAddrSpec, if_neg h0, if_neg hc, h1]
      simp

/-- C7: `ParseI2PAddr` implements exactly the claimed case analysis — a
colon-free input is the destination with port 0, otherwise the final
segment must parse as a base-10 port in `[0, 65535]` (empty, signed,
non-digit or out-of-range segments fail with the invalid-port error naming
the segment) and the preceding segments, colons preserved, form the
destination. -/
theorem parseI2PAddr_correct (addr d pstr : ByteStr) (p : Nat) :
    ParseI2PAddr addr = parseAddrSpec addr ∧
    (parsePort pstr = some p → ParseI2PAddr (d ++ 58 :: pstr) = .ok ⟨d, p⟩) :=
  ⟨parseAddr_eq_spec addr, fun hp => parseAddr_ok_with_port d pstr p hp⟩

/-- Witness for C7: `"x"` parses per the spec description, and
`"a:b:12345"` keeps the colon-bearing destination `"a:b"` with port
12345. -/
theorem parseI2PAddr_correct_witness :
    ParseI2PAddr [120] = parseAddrSpec [120] ∧
    ParseI2PAddr ([97, 58, 98] ++ 58 :: [49, 50, 51, 52, 53]) =
      .ok ⟨[97, 58, 98], 12345⟩ :=
  ⟨(parseI2PAddr_correct [120] [97, 58, 98] [49, 50, 51, 52, 53] 12345).1,
    (parseI2PAddr_correct [120] [97, 58, 98] [49, 50, 51, 52, 53] 12345).2
      (by decide)⟩

/-- When the input contains a colon, any successful parse strictly shortens
the destination relative to the input. -/
theorem parse_ok_dest_shorter {s : ByteStr} {a : I2PAddr} (hc : 58 ∈ s)
    (h : ParseI2PAddr s = .ok a) : a.destination.length < s.length := by
  have hne : s ≠ [] := by intro hh; subst hh; cases hc
  have h2 := two_le_length_splitColon hc
  rcases List.eq_nil_or_concat (splitColon s) with hnil | ⟨xs, tl, hxs⟩
  · exact absurd hnil (splitColon_ne_nil s)
  · rw [List.concat_eq_append] at hxs
    have hxs_ne : xs ≠ [] := by
      intro hh
      subst hh
      rw [hxs] at h2
      simp at h2
    simp only [ParseI2PAddr, if_neg hne, hxs] at h
    have hlen1 : (xs ++ [tl]).length ≠ 1 := by
      have := List.length_pos.mpr hxs_ne
      simp only [List.length_append, List.length_cons, List.length_nil]
      omega
    rw [if_neg hlen1, getLastD_concat_any, List.dropLast_concat] at h
    cases hp : parsePort tl with
    | none => rw [hp] at h; exact Except.noConfusion h
    | some p =>
      rw [hp] at h
      have ha := Except.ok.inj h
      have hdest : a.destination = joinColon xs := by rw [← ha]
      have hsrc : s = joinColon xs ++ 58 :: tl := by
        conv_lhs => rw [← joinColon_splitColon s]
        rw [hxs, joinColon_concat xs tl hxs_ne]
      rw [hdest, hsrc]
      simp [List.length_append]

/-- C10: an input ending in a colon fails with the invalid-port error on
the empty final segment (never defaulting the port), and a successful
parse can only return the whole input as destination when the input is
colon-free. -/
theorem parseAddr_trailingColon (s : ByteStr) :
    ParseI2PAddr (s ++ [58]) = .error (.invalidPort []) ∧
    (∀ a, ParseI2PAddr s = .ok a → a.destination = s → 58 ∉ s) := by
  constructor
  · have hne : s ++ [58] ≠ [] := by simp
    have hparts : splitColon (s ++ [58]) = splitColon s ++ [[]] := by
      rw [show s ++ [58] = s ++ 58 :: [] from rfl, splitColon_append]
      rfl
    simp only [ParseI2PAddr, if_neg hne, hparts]
    have hlen1 : (splitColon s ++ [[]]).length ≠ 1 := by
      have := List.length_pos.mpr (splitColon_ne_nil s)
      simp only [List.length_append, List.length_cons, List.length_nil]
      omega
    rw [if_neg hlen1, getLastD_concat_any]
    rfl
  · intro a hok hdest hmem
    have hlt := parse_ok_dest_shorter hmem hok
    rw [hdest] at hlt
    omega

/-- Witness for C10: `"dest:"` fails with the invalid empty port segment,
and the concrete parse of `"a:0"` never returns the whole input as the
destination. -/
theorem parseAddr_trailingColon_witness :
    ParseI2PAddr ([100, 101, 115, 116] ++ [58]) = .error (.invalidPort []) ∧
    (ParseI2PAddr [97, 58, 48] = .ok ⟨[97, 58, 48], 0⟩ → False) :=
  ⟨(parseAddr_trailingColon [100, 101, 115, 116]).1,
    fun hok => (parseAddr_trailingColon [97, 58, 48]).2 ⟨[97, 58, 48], 0⟩ hok
      rfl (by decide)⟩

/-! ## Options mapping (src/doc.go)

The wrapper code lives in src/doc.go; the underlying
`github.com/go-i2p/common/data` Mapping routines (`ReadMapping`,
`GoMapToMapping`, `Mapping.Data`) are not part of this repository and are
modelled from the spec below. -/

/-- A Go `map[string]string`, modelled as an association list whose keys
are kept unique by the upsert operation (Go map iteration order is
unspecified, and no observation here depends on list order). -/
abbrev GoMap := List (ByteStr × ByteStr)

/-- Go map upsert `m[k] = v`: replace the value if the key is present,
otherwise add the pair. -/
def mapInsert (m : GoMap) (k v : ByteStr) : GoMap :=
  match m with
  | [] => [(k, v)]
  | p :: rest => if p.1 = k then (k, v) :: rest else p :: mapInsert rest k v

/-- Go map lookup `m[k]` (as an `Option`). -/
def mapLookup : GoMap → ByteStr → Option ByteStr
  | [], _ => none
  | p :: rest, k => if p.1 = k then some p.2 else mapLookup rest k

/-- The keys of a Go map. -/
def keys (m : GoMap) : List ByteStr := m.map Prod.fst

/-- Accumulate parsed pairs into a Go map, last write wins
(`for _, pair := range mappingValues { values[keyStr] = valStr }`). -/
def mapOfPairs (ps : List (ByteStr × ByteStr)) : GoMap :=
  ps.foldl (fun m p => mapInsert m p.1 p.2) []

/-- Nat-lexicographic order on raw byte strings (Go `sort.Strings`). -/
def lexLe : ByteStr → ByteStr → Bool
  | [], _ => true
  | _ :: _, [] => false
  | a :: as, b :: bs =>
    if a < b then true else if b < a then false else lexLe as bs

/-- Insert a key into a list sorted by `lexLe`. -/
def insertSorted (k : ByteStr) : List ByteStr → List ByteStr
  | [] => [k]
  | x :: xs => if lexLe k x then k :: x :: xs else x :: insertSorted k xs

/-- Sort keys in ascending raw byte order. -/
def sortKeys (ks : List ByteStr) : List ByteStr := ks.foldr insertSorted []

/-- One `len(key):u8, key, '=', len(value):u8, value, ';'` record. -/
def encRecord (k v : ByteStr) : ByteStr :=
  (k.length % 256) :: k ++ 61 :: (v.length % 256) :: v ++ [59]

/-- Modelled from the spec: the canonical content of a mapping — all keys
collected, sorted ascending by raw byte value, and emitted as records in
that order. -/
def mappingContent (m : GoMap) : ByteStr :=
  ((sortKeys (keys m)).map (fun k => encRecord k ((mapLookup m k).getD []))).flatten

/-- Modelled from the spec: `data.Mapping.Data()` — the canonical
serialized form, a 2-byte big-endian size prefix followed by the canonical
content.  The `Mapping` value cached inside a decoded `Options` is
modelled as its parsed key/value pair list. -/
def mappingData (ps : List (ByteStr × ByteStr)) : ByteStr :=
  u16be (mappingContent (mapOfPairs ps)).length ++ mappingContent (mapOfPairs ps)

/-- Encode-time errors of the mapping serializer. -/
inductive MappingEncErr where
  /-- a key exceeds 255 encoded bytes -/
  | keyTooLong (key : ByteStr)
  /-- a value exceeds 255 encoded bytes; carries the key -/
  | valueTooLong (key : ByteStr)
deriving DecidableEq, Repr

/-- Modelled from the spec: `data.GoMapToMapping(m).Data()` — every key and
value must be at most 255 bytes (the first violation, in canonical key
order, fails the whole encode naming the offending key), then the map is
serialized canonically. -/
def goMapToMappingData (m : GoMap) : Except MappingEncErr ByteStr :=
  match (sortKeys (keys m)).find? (fun k => decide (255 < k.length)) with
  | some k => .error (.keyTooLong k)
  | none =>
    match (sortKeys (keys m)).find?
        (fun k => decide (255 < ((mapLookup m k).getD []).length)) with
    | some k => .error (.valueTooLong k)
    | none => .ok (u16be (mappingContent m).length ++ mappingContent m)

/-- Decode-time errors of `OptionsFromBytes`. -/
inductive OptionsErr where
  /-- "data too short for size field (need 2 bytes, got %d)" -/
  | tooShort (got : Nat)
  /-- declared size exceeds the available bytes -/
  | sizeMismatch (need got : Nat)
  /-- a key/value record violates the grammar; carries the byte offset of
  the record -/
  | malformedPair (offset : Nat)
deriving DecidableEq, Repr

/-- Structural worker for `parsePairs`: the fuel only bounds the number of
records; each record consumes at least four region bytes and exactly one
fuel unit, so with `region.length` fuel the fuel never runs out. -/
def parsePairsGo : Nat → ByteStr → Nat → Except Nat (List (ByteStr × ByteStr))
  | _, [], _ => .ok []
  | 0, _ :: _, off => .error off
  | fuel + 1, klen :: rest, off =>
    if rest.length < klen + 1 then .error off
    else if (rest.drop klen).headD 0 ≠ 61 then .error off
    else
      match rest.drop (klen + 1) with
      | [] => .error off
      | vlen :: rest2 =>
        if rest2.length < vlen + 1 then .error off
        else if (rest2.drop vlen).headD 0 ≠ 59 then .error off
        else
          match parsePairsGo fuel (rest2.drop (vlen + 1)) (off + klen + vlen + 4) with
          | .error e => .error e
          | .ok ps => .ok ((rest.take klen, rest2.take vlen) :: ps)

/-- Modelled from the spec: parse a size-delimited region as a sequence of
`len(key), key, '=', len(value), value, ';'` records; any deviation — a
length prefix running past the region, a missing `'='` or `';'` — fails
with the byte offset of the record. -/
def parsePairs (region : ByteStr) (off : Nat) :
    Except Nat (List (ByteStr × ByteStr)) :=
  parsePairsGo region.length region off

/-- Modelled from the spec: `data.ReadMapping` — read the 2-byte size,
require the declared content to be present, parse the region strictly, and
consume exactly `2 + size` bytes (the remainder starts at `2 + size`, so
the wrapper's `len(rawData) - len(remainder)` equals `2 + size`). -/
def readMapping (data : ByteStr) : Except OptionsErr (List (ByteStr × ByteStr) × Nat) :=
  if data.length < 2 then .error (.tooShort data.length)
  else if data.length < 2 + (byteAt data 0 * 256 + byteAt data 1) then
    .error (.sizeMismatch (2 + (byteAt data 0 * 256 + byteAt data 1)) data.length)
  else
    match parsePairs ((data.drop 2).take (byteAt data 0 * 256 + byteAt data 1)) 2 with
    | .error off => .error (.malformedPair off)
    | .ok ps => .ok (ps, 2 + (byteAt data 0 * 256 + byteAt data 1))

/-- `Options`: cached parsed mapping (`nil` pointer modelled as `none`) and
the Go map of values (`nil` map modelled as `none`). -/
structure Options where
  mapping : Option (List (ByteStr × ByteStr))
  values : Option GoMap
deriving DecidableEq, Repr

/-- `EmptyOptions`. -/
def EmptyOptions : Options := ⟨none, some []⟩

/-- `OptionsFromBytes`: too-short guard, explicit empty-mapping fast path,
then `data.ReadMapping`; the parsed pairs are accumulated into the values
map (the per-pair `Data()` error skip in the Go loop cannot fire in the
model, where parsed pairs are already raw byte strings). -/
def OptionsFromBytes (rawData : ByteStr) : Except OptionsErr (Options × Nat) :=
  if rawData.length < 2 then .error (.tooShort rawData.length)
  else if byteAt rawData 0 * 256 + byteAt rawData 1 = 0 then
    .ok (⟨none, some []⟩, 2)
  else
    match readMapping rawData with
    | .error e => .error e
    | .ok (ps, consumed) => .ok (⟨some ps, some (mapOfPairs ps)⟩, consumed)

/-- `Options.Bytes` on a possibly-nil receiver: nil or empty encodes as the
two zero size bytes; a cached mapping serializes via `Mapping.Data`;
otherwise the values map is converted via `GoMapToMapping`. -/
def OptionsBytes (o : Option Options) : Except MappingEncErr ByteStr :=
  match o with
  | none => .ok [0, 0]
  | some o =>
    if (o.values.getD []).length = 0 then .ok [0, 0]
    else
      match o.mapping with
      | some ps => .ok (mappingData ps)
      | none => goMapToMappingData (o.values.getD [])

/-- `Options.Len` on a possibly-nil receiver. -/
def OptionsLen (o : Option Options) : Nat :=
  match o with
  | none => 2
  | some o =>
    if (o.values.getD []).length = 0 then 2
    else
      match o.mapping with
      | some ps => (mappingData ps).length
      | none =>
        match goMapToMappingData (o.values.getD []) with
        | .ok bs => bs.length
        | .error _ => 2

/-- `Options.IsEmpty` on a possibly-nil receiver. -/
def OptionsIsEmpty (o : Option Options) : Bool :=
  match o with
  | none => true
  | some o => decide ((o.values.getD []).length = 0)

/-- `Options.Get` on a possibly-nil receiver: empty string when the
receiver or its map is nil or the key is absent. -/
def OptionsGet (o : Option Options) (key : ByteStr) : ByteStr :=
  match o with
  | none => []
  | some o =>
    match o.values with
    | none => []
    | some m => (mapLookup m key).getD []

/-- `Options.Has` on a possibly-nil receiver. -/
def OptionsHas (o : Option Options) (key : ByteStr) : Bool :=
  match o with
  | none => false
  | some o =>
    match o.values with
    | none => false
    | some m => (mapLookup m key).isSome

/-- `Options.ToMap` on a possibly-nil receiver: a fresh map holding a copy
of every pair. -/
def OptionsToMap (o : Option Options) : GoMap :=
  match o with
  | none => []
  | some o =>
    match o.values with
    | none => []
    | some m => m.foldl (fun acc p => mapInsert acc p.1 p.2) []

/-- A Go runtime fault. -/
inductive GoPanic where
  /-- nil pointer dereference -/
  | nilDeref
deriving DecidableEq, Repr

/-- `Options.Set`: the method reads `o.values` before any nil-receiver
guard, so calling it on a nil `*Options` dereferences a nil pointer and
faults (modelled as an error); on a live receiver it upserts the pair and
clears the cached mapping. -/
def OptionsSet (o : Option Options) (key value : ByteStr) :
    Except GoPanic Options :=
  match o with
  | none => .error .nilDeref
  | some o => .ok ⟨none, some (mapInsert (o.values.getD []) key value)⟩

/-- `NewOptions`: a nil argument gives `EmptyOptions`; otherwise the
caller's map is copied pair by pair. -/
def NewOptions (m : Option GoMap) : Options :=
  match m with
  | none => EmptyOptions
  | some m => ⟨none, some (m.foldl (fun acc p => mapInsert acc p.1 p.2) [])⟩

/-- Go map upsert has the expected lookup behaviour. -/
theorem mapLookup_mapInsert (m : GoMap) (k v k' : ByteStr) :
    mapLookup (mapInsert m k v) k' =
      if k = k' then some v else mapLookup m k' := by
  induction m with
  | nil => simp only [mapInsert, mapLookup]
  | cons p rest ih =>
    by_cases hp : p.1 = k
    · simp only [mapInsert, if_pos hp, mapLookup]
      by_cases h' : k = k'
      · rw [if_pos h', if_pos h']
      · rw [if_neg h', if_neg h', if_neg (fun hh => h' (hp ▸ hh))]
    · simp only [mapInsert, if_neg hp, mapLookup, ih]
      by_cases h' : p.1 = k'
      · rw [if_pos h', if_neg (fun hh => hp (h'.trans hh.symm)), if_pos h']
      · rw [if_neg h', if_neg h']

/-- Every key inserted during a fold stays present. -/
theorem mapLookup_foldl_ne_none (qs : List (ByteStr × ByteStr)) (m : GoMap)
    (k : ByteStr) (h : mapLookup m k ≠ none ∨ k ∈ qs.map Prod.fst) :
    mapLookup (qs.foldl (fun acc p => mapInsert acc p.1 p.2) m) k ≠ none := by
  induction qs generalizing m with
  | nil =>
    rcases h with h | h
    · simpa using h
    · simp at h
  | cons q qs ih =>
    simp only [List.foldl_cons]
    apply ih
    rcases h with h | h
    · left
      rw [mapLookup_mapInsert]
      split
      · simp
      · exact h
    · simp only [List.map_cons, List.mem_cons] at h
      rcases h with h | h
      · left
        rw [mapLookup_mapInsert, if_pos h.symm]
        simp
      · right
        exact h

/-- The keys after an upsert: unchanged for a present key, the new key
appended otherwise. -/
theorem keys_mapInsert (m : GoMap) (k v : ByteStr) :
    keys (mapInsert m k v) = if k ∈ keys m then keys m else keys m ++ [k] := by
  induction m with
  | nil => simp [mapInsert, keys]
  | cons p rest ih =>
    by_cases hp : p.1 = k
    · simp only [mapInsert, if_pos hp, keys, List.map_cons]
      rw [if_pos (by simp [hp.symm])]
      simp [hp]
    · simp only [mapInsert, if_neg hp, keys, List.map_cons] at ih ⊢
      by_cases hk : k ∈ List.map Prod.fst rest
      · rw [if_pos hk] at ih
        rw [if_pos (by simp [hk]), ih]
      · rw [if_neg hk] at ih
        rw [if_neg (by
          simp only [List.mem_cons, not_or]
          exact ⟨fun hh => hp hh.symm, hk⟩), ih]
        simp

/-- Upserting preserves distinctness of keys. -/
theorem nodup_keys_mapInsert (m : GoMap) (k v : ByteStr)
    (h : (keys m).Nodup) : (keys (mapInsert m k v)).Nodup := by
  rw [keys_mapInsert]
  split
  · exact h
  · rename_i hk
    rw [List.nodup_append]
    refine ⟨h, List.nodup_singleton k, ?_⟩
    intro a ha hb
    simp only [List.mem_singleton] at hb
    subst hb
    exact hk ha

/-- Folding upserts over any start map preserves key distinctness. -/
theorem nodup_keys_foldl (qs : List (ByteStr × ByteStr)) (m : GoMap)
    (h : (keys m).Nodup) :
    (keys (qs.foldl (fun acc p => mapInsert acc p.1 p.2) m)).Nodup := by
  induction qs generalizing m with
  | nil => exact h
  | cons q qs ih =>
    simp only [List.foldl_cons]
    exact ih _ (nodup_keys_mapInsert m q.1 q.2 h)

/-- The map accumulated from parsed pairs has distinct keys. -/
theorem nodup_keys_mapOfPairs (ps : List (ByteStr × ByteStr)) :
    (keys (mapOfPairs ps)).Nodup :=
  nodup_keys_foldl ps [] (by simp [keys])

/-- Nat-lexicographic order is total. -/
theorem lexLe_total (a b : ByteStr) : lexLe a b = true ∨ lexLe b a = true := by
  induction a generalizing b with
  | nil => left; rfl
  | cons x xs ih =>
    cases b with
    | nil => right; rfl
    | cons y ys =>
      by_cases h1 : x < y
      · left
        simp [lexLe, h1]
      · by_cases h2 : y < x
        · right
          simp [lexLe, h2]
        · have hxy : x = y := by omega
          subst hxy
          rcases ih ys with h | h
          · left
            simpa [lexLe] using h
          · right
            simpa [lexLe] using h

/-- Inserting into a `lexLe`-sorted list keeps it sorted. -/
theorem chain'_lexLe_insertSorted (k : ByteStr) (xs : List ByteStr)
    (h : List.Chain' (fun a b => lexLe a b = true) xs) :
    List.Chain' (fun a b => lexLe a b = true) (insertSorted k xs) := by
  induction xs with
  | nil => simp [insertSorted]
  | cons x xs ih =>
    simp only [insertSorted]
    by_cases hk : lexLe k x = true
    · rw [if_pos hk]
      exact List.chain'_cons.mpr ⟨hk, h⟩
    · rw [if_neg hk]
      have hxk : lexLe x k = true := (lexLe_total k x).resolve_left hk
      rcases xs with _ | ⟨y, ys⟩
      · simp only [insertSorted]
        exact List.chain'_cons.mpr ⟨hxk, List.chain'_singleton k⟩
      · have hchain := List.chain'_cons.mp h
        simp only [insertSorted]
        by_cases hky : lexLe k y = true
        · rw [if_pos hky]
          exact List.chain'_cons.mpr ⟨hxk, List.chain'_cons.mpr ⟨hky, hchain.2⟩⟩
        · rw [if_neg hky]
          have hrec := ih hchain.2
          simp only [insertSorted, if_neg hky] at hrec
          exact List.chain'_cons.mpr ⟨hchain.1, hrec⟩

/-- The canonical key sort is sorted. -/
theorem chain'_lexLe_sortKeys (ks : List ByteStr) :
    List.Chain' (fun a b => lexLe a b = true) (sortKeys ks) := by
  induction ks with
  | nil => simp [sortKeys]
  | cons k ks ih => exact chain'_lexLe_insertSorted k _ ih

/-- Sorted insertion is a permutation of consing. -/
theorem insertSorted_perm (k : ByteStr) (xs : List ByteStr) :
    List.Perm (insertSorted k xs) (k :: xs) := by
  induction xs with
  | nil => exact List.Perm.refl _
  | cons x xs ih =>
    simp only [insertSorted]
    split
    · exact List.Perm.refl _
    · exact (ih.cons x).trans (List.Perm.swap k x xs)

/-- The canonical key sort permutes the keys. -/
theorem sortKeys_perm (ks : List ByteStr) : List.Perm (sortKeys ks) ks := by
  induction ks with
  | nil => exact List.Perm.refl _
  | cons k ks ih => exact (insertSorted_perm k (sortKeys ks)).trans (ih.cons k)

/-- Sorting distinct keys keeps them distinct. -/
theorem nodup_sortKeys {ks : List ByteStr} (h : ks.Nodup) :
    (sortKeys ks).Nodup :=
  ((sortKeys_perm ks).nodup_iff).mpr h

/-- A sorted list of distinct elements is strictly ascending. -/
theorem chain'_strict_of_nodup {l : List ByteStr}
    (hc : List.Chain' (fun a b => lexLe a b = true) l) (hn : l.Nodup) :
    List.Chain' (fun a b => lexLe a b = true ∧ a ≠ b) l := by
  induction l with
  | nil => simp
  | cons a l ih =>
    cases l with
    | nil => simp
    | cons b t =>
      rw [List.chain'_cons] at hc ⊢
      rw [List.nodup_cons] at hn
      refine ⟨⟨hc.1, ?_⟩, ih hc.2 hn.2⟩
      intro hab
      exact hn.1 (by rw [hab]; exact List.mem_cons_self b t)

/-- The canonically sorted key/value pairs of a map. -/
def kvsOf (m : GoMap) : List (ByteStr × ByteStr) :=
  (sortKeys (keys m)).map (fun k => (k, (mapLookup m k).getD []))

/-- For a map with distinct keys the canonical pair list is strictly
ascending in its keys. -/
theorem kvsOf_chain (m : GoMap) (h : (keys m).Nodup) :
    List.Chain' (fun p q : ByteStr × ByteStr =>
      lexLe p.1 q.1 = true ∧ p.1 ≠ q.1) (kvsOf m) := by
  have hstrict := chain'_strict_of_nodup (chain'_lexLe_sortKeys (keys m))
    (nodup_sortKeys h)
  rw [kvsOf]
  rw [List.chain'_map]
  exact hstrict

/-- The canonical content is the concatenation of the records of the
canonical pair list. -/
theorem mappingContent_eq (m : GoMap) :
    mappingContent m =
      ((kvsOf m).map (fun p => encRecord p.1 p.2)).flatten := by
  rw [mappingContent, kvsOf, List.map_map]
  rfl

/-- C5 counterexample: `Set` on the absent (nil) receiver faults — the Go
method reads `o.values` through the nil pointer before any guard — contrary
to the claim that every helper, `set` included, completes on an absent
instance. -/
theorem optionsSet_nil_cex :
    OptionsSet none [97] [98] = .error GoPanic.nilDeref := rfl

/-- C5 (amended): the read helpers (`get`, `has`, `isEmpty`, `toMap`,
`len`, `encode`) all treat an absent receiver as an empty mapping and
complete without fault, and `Set` completes on every live receiver; only
`Set` on the absent receiver faults. -/
theorem optionsNilSafety (k v : ByteStr) (o : Options) :
    OptionsGet none k = [] ∧
    OptionsHas none k = false ∧
    OptionsIsEmpty none = true ∧
    OptionsToMap none = [] ∧
    OptionsLen none = 2 ∧
    OptionsBytes none = .ok [0, 0] ∧
    ∃ o2, OptionsSet (some o) k v = .ok o2 :=
  ⟨rfl, rfl, rfl, rfl, rfl, rfl, ⟨_, rfl⟩⟩

/-- C6: whenever decode succeeds, the consumed count is `2 +` the 16-bit
big-endian size read from the first two bytes — independent of the records
parsed — and the two zero bytes decode to the empty options consuming
exactly 2 bytes. -/
theorem optionsConsumed (rawData : ByteStr) :
    (∀ o n, OptionsFromBytes rawData = .ok (o, n) →
      n = 2 + (byteAt rawData 0 * 256 + byteAt rawData 1)) ∧
    OptionsFromBytes [0, 0] = .ok (⟨none, some []⟩, 2) := by
  refine ⟨?_, rfl⟩
  intro o n h
  unfold OptionsFromBytes at h
  by_cases hl : rawData.length < 2
  · rw [if_pos hl] at h
    exact Except.noConfusion h
  · rw [if_neg hl] at h
    by_cases hsz : byteAt rawData 0 * 256 + byteAt rawData 1 = 0
    · rw [if_pos hsz] at h
      rw [Except.ok.injEq, Prod.mk.injEq] at h
      rw [hsz, ← h.2]
    · rw [if_neg hsz] at h
      unfold readMapping at h
      rw [if_neg hl] at h
      by_cases hsm : rawData.length <
          2 + (byteAt rawData 0 * 256 + byteAt rawData 1)
      · rw [if_pos hsm] at h
        exact Except.noConfusion h
      · rw [if_neg hsm] at h
        cases hpp : parsePairs
            ((rawData.drop 2).take (byteAt rawData 0 * 256 + byteAt rawData 1))
            2 with
        | error e =>
          rw [hpp] at h
          exact Except.noConfusion h
        | ok ps =>
          rw [hpp] at h
          rw [Except.ok.injEq, Prod.mk.injEq] at h
          exact h.2.symm

/-- A decodable single-pair mapping (`"foo" = "bar"`, declared size 10). -/
def sampleOptsData : ByteStr := [0, 10, 3, 102, 111, 111, 61, 3, 98, 97, 114, 59]

/-- Its parsed key/value pairs. -/
def sampleOptsPairs : List (ByteStr × ByteStr) := [([102, 111, 111], [98, 97, 114])]

/-- Witness for C6 at the single-pair mapping and the empty mapping. -/
theorem optionsConsumed_witness :
    (12 : Nat) = 2 + (byteAt sampleOptsData 0 * 256 + byteAt sampleOptsData 1) ∧
    OptionsFromBytes [0, 0] = .ok (⟨none, some []⟩, 2) :=
  ⟨(optionsConsumed sampleOptsData).1
      ⟨some sampleOptsPairs, some (mapOfPairs sampleOptsPairs)⟩ 12 (by decide),
    (optionsConsumed [0, 0]).2⟩

/-- C2: on every successful decode the values map is built from exactly
the records of the declared region — every parsed record's key is still
present in the result, none is silently dropped — and a grammar violation
inside a well-sized region always surfaces as the malformed-pair error
carrying its offset, with no partial value. -/
theorem optionsDecode_allOrNothing (rawData : ByteStr) :
    (∀ o n, OptionsFromBytes rawData = .ok (o, n) →
      ∃ ps, parsePairs
          ((rawData.drop 2).take (byteAt rawData 0 * 256 + byteAt rawData 1))
          2 = .ok ps ∧
        o.values = some (mapOfPairs ps) ∧
        ∀ p ∈ ps, mapLookup (mapOfPairs ps) p.1 ≠ none) ∧
    (∀ off, byteAt rawData 0 * 256 + byteAt rawData 1 ≠ 0 →
      2 + (byteAt rawData 0 * 256 + byteAt rawData 1) ≤ rawData.length →
      parsePairs
          ((rawData.drop 2).take (byteAt rawData 0 * 256 + byteAt rawData 1))
          2 = .error off →
      OptionsFromBytes rawData = .error (.malformedPair off)) := by
  constructor
  · intro o n h
    unfold OptionsFromBytes at h
    by_cases hl : rawData.length < 2
    · rw [if_pos hl] at h
      exact Except.noConfusion h
    · rw [if_neg hl] at h
      by_cases hsz : byteAt rawData 0 * 256 + byteAt rawData 1 = 0
      · rw [if_pos hsz] at h
        rw [Except.ok.injEq, Prod.mk.injEq] at h
        refine ⟨[], by rw [hsz]; rfl, ?_, fun p hp => absurd hp (List.not_mem_nil p)⟩
        rw [← h.1]
        rfl
      · rw [if_neg hsz] at h
        unfold readMapping at h
        rw [if_neg hl] at h
        by_cases hsm : rawData.length <
            2 + (byteAt rawData 0 * 256 + byteAt rawData 1)
        · rw [if_pos hsm] at h
          exact Except.noConfusion h
        · rw [if_neg hsm] at h
          cases hpp : parsePairs
              ((rawData.drop 2).take (byteAt rawData 0 * 256 + byteAt rawData 1))
              2 with
          | error e =>
            rw [hpp] at h
            exact Except.noConfusion h
          | ok ps =>
            rw [hpp] at h
            rw [Except.ok.injEq, Prod.mk.injEq] at h
            refine ⟨ps, rfl, ?_, ?_⟩
            · rw [← h.1]
            · intro p hp
              exact mapLookup_foldl_ne_none ps [] p.1
                (Or.inr (List.mem_map_of_mem Prod.fst hp))
  · intro off h0 hle hpp
    unfold OptionsFromBytes readMapping
    rw [if_neg (by omega), if_neg h0, if_neg (by omega), if_neg (by omega), hpp]

/-- Witness for C2: the single-pair mapping decodes with its record
present, and dropping the `'='` from the record fails the whole decode
with the malformed-pair error at offset 2. -/
theorem optionsDecode_allOrNothing_witness :
    (∃ ps, parsePairs
        ((sampleOptsData.drop 2).take
          (byteAt sampleOptsData 0 * 256 + byteAt sampleOptsData 1)) 2 = .ok ps ∧
      (⟨some sampleOptsPairs, some (mapOfPairs sampleOptsPairs)⟩ : Options).values =
        some (mapOfPairs ps) ∧
      ∀ p ∈ ps, mapLookup (mapOfPairs ps) p.1 ≠ none) ∧
    OptionsFromBytes [0, 9, 3, 102, 111, 111, 3, 98, 97, 114, 59] =
      .error (.malformedPair 2) :=
  ⟨(optionsDecode_allOrNothing sampleOptsData).1
      ⟨some sampleOptsPairs, some (mapOfPairs sampleOptsPairs)⟩ 12 (by decide),
    (optionsDecode_allOrNothing [0, 9, 3, 102, 111, 111, 3, 98, 97, 114, 59]).2
      2 (by decide) (by decide) (by decide)⟩

/-- C1: every successful encode consists of the 2-byte size prefix
followed by key/value records whose keys are strictly ascending in raw
byte order — for every receiver, however constructed — and in particular
the mapping `c ↦ 3, a ↦ 1, b ↦ 2` encodes with the record for `"a"`
before `"b"` before `"c"`. -/
theorem optionsBytes_sorted (o : Option Options) (bs : ByteStr)
    (hnd : ∀ opt m, o = some opt → opt.values = some m → (keys m).Nodup)
    (hok : OptionsBytes o = .ok bs) :
    (∃ kvs : List (ByteStr × ByteStr),
      List.Chain' (fun p q : ByteStr × ByteStr =>
        lexLe p.1 q.1 = true ∧ p.1 ≠ q.1) kvs ∧
      bs = u16be ((kvs.map fun p => encRecord p.1 p.2).flatten).length ++
        (kvs.map fun p => encRecord p.1 p.2).flatten) ∧
    OptionsBytes (some (NewOptions (some [([99], [51]), ([97], [49]), ([98], [50])]))) =
      .ok [0, 18, 1, 97, 61, 1, 49, 59, 1, 98, 61, 1, 50, 59, 1, 99, 61, 1, 51, 59] := by
  refine ⟨?_, by decide⟩
  match o with
  | none =>
    refine ⟨[], by simp, ?_⟩
    have hbs : bs = [0, 0] := (Except.ok.inj hok).symm
    rw [hbs]
    rfl
  | some opt =>
    simp only [OptionsBytes] at hok
    by_cases hemp : (opt.values.getD []).length = 0
    · rw [if_pos hemp] at hok
      refine ⟨[], by simp, ?_⟩
      have hbs : bs = [0, 0] := (Except.ok.inj hok).symm
      rw [hbs]
      rfl
    · rw [if_neg hemp] at hok
      cases hmp : opt.mapping with
      | some ps =>
        rw [hmp] at hok
        have hbs : bs = mappingData ps := (Except.ok.inj hok).symm
        refine ⟨kvsOf (mapOfPairs ps),
          kvsOf_chain _ (nodup_keys_mapOfPairs ps), ?_⟩
        rw [hbs, mappingData, mappingContent_eq]
      | none =>
        rw [hmp] at hok
        unfold goMapToMappingData at hok
        cases hf1 : (sortKeys (keys (opt.values.getD []))).find?
            (fun k => decide (255 < k.length)) with
        | some k =>
          rw [hf1] at hok
          exact Except.noConfusion hok
        | none =>
          rw [hf1] at hok
          cases hf2 : (sortKeys (keys (opt.values.getD []))).find?
              (fun k => decide (255 < ((mapLookup (opt.values.getD []) k).getD []).length)) with
          | some k =>
            rw [hf2] at hok
            exact Except.noConfusion hok
          | none =>
            rw [hf2] at hok
            have hbs : bs = u16be (mappingContent (opt.values.getD [])).length ++
                mappingContent (opt.values.getD []) := (Except.ok.inj hok).symm
            have hndm : (keys (opt.values.getD [])).Nodup := by
              cases hv : opt.values with
              | none => simp [keys]
              | some m =>
                simpa using hnd opt m rfl hv
            refine ⟨kvsOf (opt.values.getD []), kvsOf_chain _ hndm, ?_⟩
            rw [hbs, mappingContent_eq]

/-- Witness for C1 at the three-key example. -/
theorem optionsBytes_sorted_witness :
    (∃ kvs : List (ByteStr × ByteStr),
      List.Chain' (fun p q : ByteStr × ByteStr =>
        lexLe p.1 q.1 = true ∧ p.1 ≠ q.1) kvs ∧
      ([0, 18, 1, 97, 61, 1, 49, 59, 1, 98, 61, 1, 50, 59, 1, 99, 61, 1, 51, 59] :
          ByteStr) =
        u16be ((kvs.map fun p => encRecord p.1 p.2).flatten).length ++
          (kvs.map fun p => encRecord p.1 p.2).flatten) ∧
    OptionsBytes (some (NewOptions (some [([99], [51]), ([97], [49]), ([98], [50])]))) =
      .ok [0, 18, 1, 97, 61, 1, 49, 59, 1, 98, 61, 1, 50, 59, 1, 99, 61, 1, 51, 59] :=
  optionsBytes_sorted
    (some (NewOptions (some [([99], [51]), ([97], [49]), ([98], [50])])))
    [0, 18, 1, 97, 61, 1, 49, 59, 1, 98, 61, 1, 50, 59, 1, 99, 61, 1, 51, 59]
    (by
      intro opt m h1 h2
      injection h1 with h1
      subst h1
      simp only [NewOptions] at h2
      injection h2 with h2
      subst h2
      decide)
    (by decide)

/-! ### Heap-level model of map ownership

`Options.ToMap` and `NewOptions` copy their maps element by element; to
state that the copy is independent of the original we model Go map objects
as heap cells addressed by index. -/

/-- Reading an index below the first part of an append stays in it. -/
theorem get?_append_of_lt {α : Type} (l1 l2 : List α) (i : Nat)
    (h : i < l1.length) : (l1 ++ l2).get? i = l1.get? i := by
  induction l1 generalizing i with
  | nil => simp at h
  | cons x xs ih =>
    cases i with
    | zero => rfl
    | succ j =>
      exact ih j (by simp only [List.length_cons] at h; omega)

/-- Writing one index leaves every other index unchanged. -/
theorem get?_set_of_ne {α : Type} (l : List α) (i j : Nat) (x : α)
    (h : i ≠ j) : (l.set i x).get? j = l.get? j := by
  induction l generalizing i j with
  | nil => rfl
  | cons y ys ih =>
    cases i with
    | zero =>
      cases j with
      | zero => exact absurd rfl h
      | succ j2 => rfl
    | succ i2 =>
      cases j with
      | zero => rfl
      | succ j2 => exact ih i2 j2 (fun hh => h (by rw [hh]))

/-- A heap of Go map objects; an address is an index into the cells. -/
structure Heap where
  cells : List GoMap
deriving DecidableEq, Repr

/-- Read the map object at an address (unallocated reads give the empty
map; the theorems only read live addresses). -/
def Heap.read (h : Heap) (a : Nat) : GoMap := (h.cells.get? a).getD []

/-- Allocate a fresh map object (`make(map[string]string)` with contents);
returns its address, which is distinct from every live address. -/
def Heap.alloc (h : Heap) (m : GoMap) : Nat × Heap :=
  (h.cells.length, ⟨h.cells ++ [m]⟩)

/-- Mutate the map object at an address by one upsert (`m[k] = v`). -/
def Heap.writeKey (h : Heap) (a : Nat) (k v : ByteStr) : Heap :=
  ⟨h.cells.set a (mapInsert (h.read a) k v)⟩

/-- Heap-level `Options`: the struct holds a reference to its values map
(`none` models a nil map). -/
structure OptionsH where
  valuesAddr : Option Nat
deriving DecidableEq, Repr

/-- `Options.ToMap` at the heap level: allocate a fresh map and copy every
pair of the receiver's map into it (`result := make(...); for k, v :=
range o.values { result[k] = v }`); a nil receiver or nil map yields a
fresh empty map. -/
def OptionsToMapH (h : Heap) (o : Option OptionsH) : Nat × Heap :=
  match o with
  | none => h.alloc []
  | some o =>
    match o.valuesAddr with
    | none => h.alloc []
    | some a =>
      h.alloc ((h.read a).foldl (fun acc p => mapInsert acc p.1 p.2) [])

/-- `NewOptions` at the heap level: copy the caller's map (if any) pair by
pair into a freshly allocated map owned by the new `Options`. -/
def NewOptionsH (h : Heap) (m : Option Nat) : OptionsH × Heap :=
  match m with
  | none => (⟨some (h.alloc []).1⟩, (h.alloc []).2)
  | some am =>
    (⟨some (h.alloc ((h.read am).foldl (fun acc p => mapInsert acc p.1 p.2) [])).1⟩,
      (h.alloc ((h.read am).foldl (fun acc p => mapInsert acc p.1 p.2) [])).2)

/-- `Options.Get` at the heap level. -/
def OptionsGetH (h : Heap) (o : OptionsH) (k : ByteStr) : ByteStr :=
  match o.valuesAddr with
  | none => []
  | some a => (mapLookup (h.read a) k).getD []

/-- Reading a live address is unaffected by an allocation. -/
theorem Heap.read_alloc_old (h : Heap) (m : GoMap) (a : Nat)
    (hlt : a < h.cells.length) : ((h.alloc m).2).read a = h.read a := by
  simp only [Heap.alloc, Heap.read]
  rw [get?_append_of_lt _ _ _ hlt]

/-- Reading one address is unaffected by a write to a different one. -/
theorem Heap.read_writeKey_ne (h : Heap) (a b : Nat) (k v : ByteStr)
    (hne : a ≠ b) : (h.writeKey a k v).read b = h.read b := by
  simp only [Heap.writeKey, Heap.read]
  rw [get?_set_of_ne _ _ _ _ hne]

/-- C9: the map returned by `ToMap` is an independent copy — inserting into
it afterwards changes neither the receiver's map cell nor any `Get`
observation — and the `Options` built by `NewOptions` owns a fresh copy of
the caller's map, so mutating the caller's map afterwards changes neither
the new instance's map cell nor its `Get` observations. -/
theorem optionsToMap_independent (h : Heap) (o : OptionsH) (oa a : Nat)
    (h' : Heap) (am : Nat) (o2 : OptionsH) (h2 : Heap) (k v key : ByteStr)
    (hoa : o.valuesAddr = some oa) (hlt : oa < h.cells.length)
    (htm : OptionsToMapH h (some o) = (a, h'))
    (ham : am < h.cells.length)
    (hnew : NewOptionsH h (some am) = (o2, h2)) :
    ((h'.writeKey a k v).read oa = h.read oa ∧
      OptionsGetH (h'.writeKey a k v) o key = OptionsGetH h o key) ∧
    ∀ a2, o2.valuesAddr = some a2 →
      (h2.writeKey am k v).read a2 = h2.read a2 ∧
      OptionsGetH (h2.writeKey am k v) o2 key = OptionsGetH h2 o2 key := by
  simp only [OptionsToMapH, hoa] at htm
  rw [Prod.mk.injEq] at htm
  obtain ⟨ha, hh'⟩ := htm
  simp only [NewOptionsH] at hnew
  rw [Prod.mk.injEq] at hnew
  obtain ⟨ho2, hh2⟩ := hnew
  have hread : (h'.writeKey a k v).read oa = h.read oa := by
    rw [← hh', ← ha]
    rw [Heap.read_writeKey_ne _ _ _ _ _ (by simp [Heap.alloc] at ha ⊢; omega)]
    exact Heap.read_alloc_old h _ oa hlt
  refine ⟨⟨hread, ?_⟩, ?_⟩
  · simp only [OptionsGetH, hoa, hread]
  · intro a2 ha2
    have hx : some (h.alloc ((h.read am).foldl
        (fun acc p => mapInsert acc p.1 p.2) [])).1 = o2.valuesAddr :=
      congrArg OptionsH.valuesAddr ho2
    rw [ha2] at hx
    have ha2' : a2 = h.cells.length := by
      simp only [Heap.alloc] at hx
      injection hx with hx
      omega
    have hread2 : (h2.writeKey am k v).read a2 = h2.read a2 :=
      Heap.read_writeKey_ne _ _ _ _ _ (by omega)
    exact ⟨hread2, by simp only [OptionsGetH, ha2, hread2]⟩

/-- A one-cell heap: one map object `{"a" ↦ "1"}` at address 0. -/
def heap0 : Heap := ⟨[[([97], [49])]]⟩

/-- The heap after copying that object into a fresh cell at address 1. -/
def heap1 : Heap := ⟨[[([97], [49])], [([97], [49])]]⟩

/-- Witness for C9 on the one-cell heap: writing `"b" ↦ "2"` into the copy
(or into the caller's map) leaves the other object and its `Get`
observations unchanged. -/
theorem optionsToMap_independent_witness :
    ((heap1.writeKey 1 [98] [50]).read 0 = heap0.read 0 ∧
      OptionsGetH (heap1.writeKey 1 [98] [50]) ⟨some 0⟩ [97] =
        OptionsGetH heap0 ⟨some 0⟩ [97]) ∧
    ((heap1.writeKey 0 [98] [50]).read 1 = heap1.read 1 ∧
      OptionsGetH (heap1.writeKey 0 [98] [50]) ⟨some 1⟩ [97] =
        OptionsGetH heap1 ⟨some 1⟩ [97]) :=
  ⟨(optionsToMap_independent heap0 ⟨some 0⟩ 0 1 heap1 0 ⟨some 1⟩ heap1
      [98] [50] [97] rfl (by decide) rfl (by decide) rfl).1,
    (optionsToMap_independent heap0 ⟨some 0⟩ 0 1 heap1 0 ⟨some 1⟩ heap1
      [98] [50] [97] rfl (by decide) rfl (by decide) rfl).2 1 rfl⟩

end Datagrams
